import Mathlib

/-!
Shallow embedding of pyszz's refactoring-aware SZZ (`src/ra_szz.py`).

The file embeds, from the source:
  * the refactoring cache `RASZZ._extract_refactorings` (lines 25-45), as a
    fold over the requested commits against a detector oracle that reports
    the four outcomes the Python code distinguishes (well-formed JSON,
    shape-corrupted JSON, `subprocess.CalledProcessError`,
    `subprocess.TimeoutExpired`);
  * the impacted-file filtering `RASZZ.get_impacted_files` (lines 47-68);
  * the recursive blame `RASZZ._blame` (lines 70-139) together with the
    `ReblameCandidate` work items (lines 141-145), as a fuel-indexed
    function.  The underlying history engine `super()._blame` (class
    `MASZZ`, not part of this repository's sources) is an abstract
    parameter of the model, and the refactoring cache consulted by `_blame`
    is modelled as a pure per-commit function: `_extract_refactorings` is
    write-once per key with a value determined by the detector, so every
    lookup that succeeds returns the detector-derived value (the lookups
    can only fail through the `CalledProcessError` hole in the cache, which
    is analysed separately on the cache model).
  * The Python `_blame` also forwards `skip_comments`,
    `ignore_revs_file_path`, `ignore_whitespaces` and the two move-detection
    flags unchanged to every call; they only parameterise the external
    engine and are absorbed into the abstract `baseBlame`.
-/

/-- A `rightSideLocations` entry reported by RefactoringMiner:
`{filePath, startLine, endLine}` (ra_szz.py lines 55-58 and 103-106). -/
structure Location where
  filePath : String
  startLine : Nat
  endLine : Nat
deriving DecidableEq

/-- One refactoring operation `{type, rightSideLocations}` as stored in
`self.refactorings[commit]`. -/
structure Refactoring where
  type : String
  rightSideLocations : List Location
deriving DecidableEq

/-- Outcome of one RefactoringMiner invocation, as distinguished by
`_extract_refactorings` (ra_szz.py lines 32-45): a decodable JSON output
whose shape `commits[0].refactorings` is present (`ok`), a decodable output
with that shape missing (`malformed`, line 37), a
`subprocess.CalledProcessError` (line 41), or a `subprocess.TimeoutExpired`
(line 43). -/
inductive DetectorOutcome
  | ok (refs : List Refactoring)
  | malformed
  | processError
  | timeout
deriving DecidableEq

/-- First-match lookup in an association list keyed by strings; models the
Python `dict` operations `key in d` / `d[key]` (keys are unique by
construction everywhere below). -/
def lookupKey {α : Type} (k : String) : List (String × α) → Option α
  | [] => none
  | kv :: rest => if kv.1 = k then some kv.2 else lookupKey k rest

/-- The refactoring cache `self.refactorings`: commit hash to list of
refactorings, insertion ordered. -/
abbrev RefCache := List (String × List Refactoring)

/-- `RASZZ._extract_refactorings(commits)` (ra_szz.py lines 25-45), with an
instrumentation component: the returned pair is the updated cache together
with the list of commits for which the detector was actually invoked.  For
a commit already cached nothing happens (line 29 guard).  Otherwise the
detector runs; on `ok` the reported refactorings are stored (line 36), on a
shape-corrupted output the empty list is stored (line 39), on
`CalledProcessError` the exception is logged and NO entry is stored (lines
41-42), on `TimeoutExpired` the empty list is stored (line 45).
The accumulator pairs the cache with the instrumentation (the ordered list
of commits the detector was invoked for). -/
def extractStep (detector : String → DetectorOutcome)
    (acc : RefCache × List String) (commit : String) : RefCache × List String :=
  if (lookupKey commit acc.1).isSome then acc
  else
    (match detector commit with
      | .ok refs => acc.1 ++ [(commit, refs)]
      | .malformed => acc.1 ++ [(commit, [])]
      | .processError => acc.1
      | .timeout => acc.1 ++ [(commit, [])],
     acc.2 ++ [commit])

/-- The whole commit loop of `_extract_refactorings` (ra_szz.py lines
25-45), instrumented. -/
def extractRefactoringsT (detector : String → DetectorOutcome)
    (commits : List String) (cache : RefCache) : RefCache × List String :=
  commits.foldl (extractStep detector) (cache, [])

/-- The cache left by `_extract_refactorings` (forgetting the
instrumentation). -/
def extractRefactorings (detector : String → DetectorOutcome)
    (commits : List String) (cache : RefCache) : RefCache :=
  (extractRefactoringsT detector commits cache).1

/-- One blame attribution as produced by the history engine (`BlameData`
in pyszz): commit hash, file path, line number, line content. -/
structure BlameData where
  commit : String
  file_path : String
  line_num : Nat
  content : String
deriving DecidableEq

/-- `ReblameCandidate` (ra_szz.py lines 141-145): a work item grouping the
lines of one file whose attribution fell inside refactoring regions of one
revision.  `modified_lines` is a Python list, built by `append`. -/
structure ReblameCandidate where
  rev : String
  file_path : String
  modified_lines : List Nat
deriving DecidableEq

/-- The environment of the blame model.

`baseBlame` — Modelled from the spec: the external line-history engine
(`HistoryEngine`, realised by `super()._blame` of class `MASZZ`, whose code
is not part of this repository's sources): given a revision, a file path,
a list of line numbers, and the optional ignore list, it returns the
candidate attributions (spec section 6).

`refactorings` — the per-commit content of the refactoring cache consulted
at ra_szz.py lines 54 and 102 (see the header comment for the elision of
the cache state). -/
structure Env where
  baseBlame : String → String → List Nat → Option (List String) → List BlameData
  refactorings : String → List Refactoring

/-- The covering test of ra_szz.py line 62 and line 108: the location's
file matches and the line number lies in `[startLine, endLine]`. -/
def locCovers (loc : Location) (fp : String) (ln : Nat) : Bool :=
  fp == loc.filePath && decide (loc.startLine ≤ ln) && decide (ln ≤ loc.endLine)

/-- Some region of some refactoring of the given list covers `(fp, ln)`. -/
def coveredBy (refs : List Refactoring) (fp : String) (ln : Nat) : Bool :=
  refs.any (fun r => r.rightSideLocations.any (fun loc => locCovers loc fp ln))

/-- The `to_reblame` dictionary (ra_szz.py line 97), insertion ordered. -/
abbrev ToReblame := List (String × ReblameCandidate)

/-- The dictionary key `blame.commit.hexsha + "@" + blame.file_path`
(ra_szz.py lines 110-113). -/
def tbKey (rev fp : String) : String := rev ++ "@" ++ fp

/-- The `modified_lines.append` of ra_szz.py line 113, applied to the
entry holding the given key. -/
def tbAppendLine (key : String) (ln : Nat) (kv : String × ReblameCandidate) :
    String × ReblameCandidate :=
  if kv.1 = key then (kv.1, ⟨kv.2.rev, kv.2.file_path, kv.2.modified_lines ++ [ln]⟩)
  else kv

/-- One covered hit (ra_szz.py lines 110-113): create the
`ReblameCandidate` if the key is absent, else `append` the line number to
the existing candidate's `modified_lines`. -/
def tbAdd (tb : ToReblame) (rev fp : String) (ln : Nat) : ToReblame :=
  if (lookupKey (tbKey rev fp) tb).isSome then
    tb.map (tbAppendLine (tbKey rev fp) ln)
  else
    tb ++ [(tbKey rev fp, ⟨rev, fp, [ln]⟩)]

/-- The innermost location loop body for one `blame` item (ra_szz.py lines
103-114): a covering location records the line in `to_reblame` and clears
`can_add`. -/
def scanLoc (b : BlameData) (acc : ToReblame × Bool) (loc : Location) :
    ToReblame × Bool :=
  if locCovers loc b.file_path b.line_num then
    (tbAdd acc.1 b.commit b.file_path b.line_num, false)
  else acc

/-- The refactoring loop body for one `blame` item (ra_szz.py lines
102-114). -/
def scanRef (b : BlameData) (acc : ToReblame × Bool) (r : Refactoring) :
    ToReblame × Bool :=
  r.rightSideLocations.foldl (scanLoc b) acc

/-- The candidate loop body for one `blame` item (ra_szz.py lines
101-114): scan every refactoring of `blame.commit`, every location.
Returns the updated `to_reblame` and the final `can_add`. -/
def processCandidate (refs : List Refactoring) (tb : ToReblame) (b : BlameData) :
    ToReblame × Bool :=
  refs.foldl (scanRef b) (tb, true)

/-- One candidate step (ra_szz.py lines 100-117): process the candidate,
then add it to `result_blame_data` when `can_add` survived. -/
def partitionStep (refacs : String → List Refactoring)
    (acc : ToReblame × Finset BlameData) (b : BlameData) : ToReblame × Finset BlameData :=
  let p := processCandidate (refacs b.commit) acc.1 b
  (p.1, if p.2 then insert b acc.2 else acc.2)

/-- The full candidate loop (ra_szz.py lines 97-117): fold over the
candidate blame data, building `to_reblame` and the accepted
`result_blame_data` set. -/
def partitionCandidates (refacs : String → List Refactoring)
    (candidates : List BlameData) : ToReblame × Finset BlameData :=
  candidates.foldl (partitionStep refacs) ([], ∅)

/-- Outcome of one `_blame` call: the accepted attributions together with
the reblame requests dropped by the cycle guard anywhere in the recursion
(`ok`); the `TypeError` raised by `reblame_candidate.rev in
ignore_revs_list` when `ignore_revs_list` is `None` (ra_szz.py line 121);
or exhaustion of the modelling fuel. -/
inductive BlameOutcome
  | ok (res : Finset BlameData) (dropped : List ReblameCandidate)
  | noneTypeError
  | fuelOut
deriving DecidableEq

/-- One iteration of the reblame loop (ra_szz.py lines 119-137) for the
request `rc`, given the recursion `recurse` for the sub-calls: on `None`
the membership test raises; a request whose revision is already ignored is
skipped (`continue`, line 122) and recorded as dropped; otherwise the
recursive call runs with `ignore_revs_list.copy()` extended by the
request's revision (lines 123-136) and its results are unioned in. -/
def reblameStep
    (recurse : String → String → List Nat → Option (List String) → BlameOutcome)
    (ignore : Option (List String)) (acc : BlameOutcome) (rc : ReblameCandidate) :
    BlameOutcome :=
  match acc with
  | .ok res dropped =>
    match ignore with
    | none => .noneTypeError
    | some ig =>
      if rc.rev ∈ ig then .ok res (dropped ++ [rc])
      else
        match recurse rc.rev rc.file_path rc.modified_lines (some (ig ++ [rc.rev])) with
        | .ok res2 dropped2 => .ok (res ∪ res2) (dropped ++ dropped2)
        | e => e
  | e => e

/-- The reblame loop `for _, reblame_candidate in to_reblame.items()`
(ra_szz.py lines 119-137). -/
def reblameLoop
    (recurse : String → String → List Nat → Option (List String) → BlameOutcome)
    (ignore : Option (List String)) (tb : ToReblame) (acc : BlameOutcome) :
    BlameOutcome :=
  tb.foldl (fun a kv => reblameStep recurse ignore a kv.2) acc

/-- `RASZZ._blame` (ra_szz.py lines 70-139), fuel-indexed: obtain the
candidates from the engine, partition them against the refactoring cache,
then run the reblame loop with the recursion at one fuel less. -/
def blameF (env : Env) :
    Nat → String → String → List Nat → Option (List String) → BlameOutcome
  | 0, _, _, _, _ => .fuelOut
  | fuel + 1, rev, fp, lines, ignore =>
    let p := partitionCandidates env.refactorings (env.baseBlame rev fp lines ignore)
    reblameLoop (fun r f l i => blameF env fuel r f l i) ignore p.1 (.ok p.2 [])

/-- The `to_reblame` dictionary a `_blame` call builds from its inputs. -/
def toReblameOf (env : Env) (rev fp : String) (lines : List Nat)
    (ignore : Option (List String)) : ToReblame :=
  (partitionCandidates env.refactorings (env.baseBlame rev fp lines ignore)).1

/-- The accepted (`can_add`) part of `result_blame_data` a `_blame` call
builds from its inputs, before the reblame loop. -/
def acceptedOf (env : Env) (rev fp : String) (lines : List Nat)
    (ignore : Option (List String)) : Finset BlameData :=
  (partitionCandidates env.refactorings (env.baseBlame rev fp lines ignore)).2

/-- The line numbers appearing across a set of attributions. -/
def resLines (res : Finset BlameData) : Finset Nat :=
  res.image (fun b => b.line_num)

/-- The line numbers appearing across a list of reblame requests. -/
def droppedLines (dropped : List ReblameCandidate) : Finset Nat :=
  ((dropped.map (fun rc => rc.modified_lines)).flatten).toFinset

/-- The line numbers appearing across the `to_reblame` dictionary. -/
def tbLines (tb : ToReblame) : Finset Nat :=
  ((tb.map (fun kv => kv.2.modified_lines)).flatten).toFinset

/-- `ImpactedFile` as consumed by `get_impacted_files`: file path and the
modified lines (a list after the first filtering assignment, ra_szz.py
line 65). -/
structure ImpactedFile where
  file_path : String
  modified_lines : List Nat
deriving DecidableEq

/-- The body of the location loop of `get_impacted_files` (ra_szz.py lines
59-65): for each impacted file, collect `lines_to_remove` (the modified
lines the location covers, with the `file_path == f.file_path` test) and
keep only the lines not collected. -/
def removeLocation (loc : Location) (fs : List ImpactedFile) : List ImpactedFile :=
  fs.map (fun f =>
    let lines_to_remove := f.modified_lines.filter (fun l => locCovers loc f.file_path l)
    { f with modified_lines :=
        f.modified_lines.filter (fun l => !lines_to_remove.contains l) })

/-- `RASZZ.get_impacted_files` after the base call (ra_szz.py lines 54-68):
fold the removal over every location of every refactoring of the fix
revision, then keep the files with a nonempty `modified_lines` (line 67).
`refs` is `self.refactorings[fix_commit_hash]`; `files` is the base-class
result, an external input of the model. -/
def getImpactedFiles (refs : List Refactoring) (files : List ImpactedFile) :
    List ImpactedFile :=
  (refs.foldl
      (fun fs r => r.rightSideLocations.foldl (fun fs loc => removeLocation loc fs) fs)
      files).filter
    (fun f => decide (0 < f.modified_lines.length))

/-- Stated from the spec's words (section 4.2, steps 3-4), for comparison
with `getImpactedFiles`: remove from every impacted file all lines covered
by some region of some refactoring of the fix revision, then drop the
files left empty. -/
def impactedFilesSpec (refs : List Refactoring) (files : List ImpactedFile) :
    List ImpactedFile :=
  (files.map (fun f =>
      { f with modified_lines :=
          f.modified_lines.filter (fun l => !coveredBy refs f.file_path l) })).filter
    (fun f => decide (0 < f.modified_lines.length))

/-- Concrete witness environment: every line is attributed to commit `r0`,
which has one refactoring whose region lies in another file `g`, so no
candidate is ever covered. -/
def envA : Env where
  baseBlame := fun _ fp lines _ => lines.map (fun l => ⟨"r0", fp, l, "c"⟩)
  refactorings := fun c => if c = "r0" then [⟨"t", [⟨"g", 5, 9⟩]⟩] else []

/-- Concrete witness environment: every line is attributed to commit `r1`,
whose refactoring region covers lines 1-3 of file `f`. -/
def envB : Env where
  baseBlame := fun _ fp lines _ => lines.map (fun l => ⟨"r1", fp, l, "c"⟩)
  refactorings := fun c => if c = "r1" then [⟨"t", [⟨"f", 1, 3⟩]⟩] else []

/-- Concrete witness environment: while `r1` is not ignored the engine
attributes every line to `r1` (whose region covers lines 1-3 of `f`); once
`r1` is ignored it attributes to `r0`, which has no refactorings. -/
def envC : Env where
  baseBlame := fun _ fp lines ig =>
    if (ig.getD []).contains "r1" then lines.map (fun l => ⟨"r0", fp, l, "c"⟩)
    else lines.map (fun l => ⟨"r1", fp, l, "c"⟩)
  refactorings := fun c => if c = "r1" then [⟨"t", [⟨"f", 1, 3⟩]⟩] else []

/-- Concrete witness environment: every line is attributed to commit `r1`,
which has one refactoring with two overlapping regions of file `f`, both
covering line 2. -/
def envD : Env where
  baseBlame := fun _ fp lines _ => lines.map (fun l => ⟨"r1", fp, l, "c"⟩)
  refactorings := fun c => if c = "r1" then [⟨"t", [⟨"f", 1, 5⟩, ⟨"f", 2, 8⟩]⟩] else []

/-! ## Generic helpers -/

/-- A fold preserves any invariant its step preserves (membership-aware). -/
theorem foldl_invariant {α β : Type} (P : α → Prop) (f : α → β → α) (l : List β)
    (init : α) (h0 : P init) (hstep : ∀ a, ∀ b ∈ l, P a → P (f a b)) :
    P (l.foldl f init) := by
  induction l generalizing init with
  | nil => exact h0
  | cons x xs ih =>
    exact ih _ (hstep _ _ (List.mem_cons_self _ _) h0)
      (fun a b hb => hstep a b (List.mem_cons_of_mem _ hb))

theorem lookupKey_append_left {α : Type} {k : String} {l : List (String × α)} {v : α}
    (l' : List (String × α)) (h : lookupKey k l = some v) :
    lookupKey k (l ++ l') = some v := by
  induction l with
  | nil => simp [lookupKey] at h
  | cons kv rest ih =>
    simp only [lookupKey, List.cons_append] at h ⊢
    split at h
    · simp_all
    · simp only [*, if_neg]
      exact ih h

theorem lookupKey_append_right {α : Type} {k : String} {l : List (String × α)}
    (l' : List (String × α)) (h : lookupKey k l = none) :
    lookupKey k (l ++ l') = lookupKey k l' := by
  induction l with
  | nil => simp [lookupKey]
  | cons kv rest ih =>
    simp only [lookupKey, List.cons_append] at h ⊢
    split at h
    · exact absurd h (by simp)
    · simp only [*, if_neg]
      exact ih h

theorem lookupKey_eq_none_iff {α : Type} {k : String} {l : List (String × α)} :
    lookupKey k l = none ↔ ∀ kv ∈ l, kv.1 ≠ k := by
  induction l with
  | nil => simp [lookupKey]
  | cons kv rest ih =>
    simp only [lookupKey, List.mem_cons]
    split
    · simp only [reduceCtorEq, false_iff]
      push_neg
      exact ⟨kv, Or.inl rfl, by assumption⟩
    · rw [ih]
      constructor
      · rintro h kv' (rfl | hm)
        · assumption
        · exact h kv' hm
      · intro h kv' hm
        exact h kv' (Or.inr hm)

/-! ## The refactoring cache (`_extract_refactorings`) -/

/-- A cache entry is preserved by one `extractStep`, and a cached commit is
not among the commits the step invokes the detector for. -/
theorem extractStep_preserves (detector : String → DetectorOutcome)
    (acc : RefCache × List String) (commit : String) {c : String}
    {v : List Refactoring} (h : lookupKey c acc.1 = some v) (hc : c ∉ acc.2) :
    lookupKey c (extractStep detector acc commit).1 = some v
    ∧ c ∉ (extractStep detector acc commit).2 := by
  unfold extractStep
  split
  · exact ⟨h, hc⟩
  · have hne : c ≠ commit := by
      rintro rfl
      simp [h] at *
    refine ⟨?_, ?_⟩
    · split <;> first
        | exact lookupKey_append_left _ h
        | exact h
    · simp [hc, hne]

/-- Fold-level preservation of a cache entry. -/
theorem extract_fold_preserves (detector : String → DetectorOutcome)
    (commits : List String) (acc : RefCache × List String) {c : String}
    {v : List Refactoring} (h : lookupKey c acc.1 = some v) (hc : c ∉ acc.2) :
    lookupKey c (commits.foldl (extractStep detector) acc).1 = some v
    ∧ c ∉ (commits.foldl (extractStep detector) acc).2 :=
  foldl_invariant
    (fun a => lookupKey c a.1 = some v ∧ c ∉ a.2)
    (extractStep detector) commits acc ⟨h, hc⟩
    (fun a b _ hp => extractStep_preserves detector a b hp.1 hp.2)

/-- Claim C7: the refactoring cache is idempotent — for every revision
already present in the cache, a later `_extract_refactorings` call
containing that revision does not invoke the detector for it and leaves
its entry unchanged; only genuinely new revisions can appear among the
detector invocations. -/
theorem extract_cached_untouched (detector : String → DetectorOutcome)
    (commits : List String) (cache : RefCache) (c : String) (v : List Refactoring)
    (h : lookupKey c cache = some v) :
    lookupKey c (extractRefactoringsT detector commits cache).1 = some v
    ∧ c ∉ (extractRefactoringsT detector commits cache).2 :=
  extract_fold_preserves detector commits (cache, []) h (by simp)

/-- Witness for C7 at a concrete cache and commit set. -/
theorem extract_cached_untouched_witness :
    lookupKey "c1"
        (extractRefactoringsT (fun _ => .ok []) ["c1", "c2"] [("c1", [⟨"t", []⟩])]).1
      = some [⟨"t", []⟩]
    ∧ "c1" ∉ (extractRefactoringsT (fun _ => .ok []) ["c1", "c2"] [("c1", [⟨"t", []⟩])]).2 :=
  extract_cached_untouched (fun _ => .ok []) ["c1", "c2"] [("c1", [⟨"t", []⟩])]
    "c1" [⟨"t", []⟩] (by decide)

/-- Claim C2 (code bug evidence): for a revision whose detector invocation
fails with `subprocess.CalledProcessError`, `_extract_refactorings` leaves
NO entry in the cache (ra_szz.py lines 41-42 log the error and store
nothing), even though the detector was invoked for it; a subsequent
`self.refactorings[r]` lookup (ra_szz.py line 54 or 102) therefore fails
instead of proceeding with an empty refactoring list. -/
theorem extract_process_error_no_entry :
    lookupKey "r" (extractRefactorings (fun _ => .processError) ["r"] []) = none
    ∧ (extractRefactoringsT (fun _ => .processError) ["r"] []).2 = ["r"] := by
  decide

/-! ## Impacted-file filtering (`get_impacted_files`) -/

/-- The two-step removal of ra_szz.py lines 60-65 (collect
`lines_to_remove`, then drop them) is one filter on the covering test. -/
theorem removeLocation_eq (loc : Location) (fs : List ImpactedFile) :
    removeLocation loc fs =
      fs.map (fun f =>
        { f with modified_lines :=
            f.modified_lines.filter (fun l => !locCovers loc f.file_path l) }) := by
  unfold removeLocation
  refine List.map_congr_left (fun f _ => ?_)
  have h : ∀ l ∈ f.modified_lines,
      (!(f.modified_lines.filter (fun l => locCovers loc f.file_path l)).contains l)
        = (!locCovers loc f.file_path l) := by
    intro l hl
    simp [List.elem_eq_mem, List.mem_filter, hl]
  dsimp only
  congr 1
  exact List.filter_congr h

/-- Folding the removal over a list of locations filters out the lines any
of them covers. -/
theorem removeLocation_foldl (locs : List Location) (fs : List ImpactedFile) :
    locs.foldl (fun fs loc => removeLocation loc fs) fs =
      fs.map (fun f =>
        { f with modified_lines :=
            f.modified_lines.filter (fun l => !locs.any (fun loc => locCovers loc f.file_path l)) }) := by
  induction locs generalizing fs with
  | nil => simp
  | cons loc locs ih =>
    rw [List.foldl_cons, ih, removeLocation_eq, List.map_map]
    refine List.map_congr_left (fun f _ => ?_)
    simp only [Function.comp]
    rw [List.filter_filter]
    refine congrArg _ (List.filter_congr (fun l _ => ?_))
    simp [List.any_cons, Bool.not_or, Bool.and_comm]

/-- Folding the removal over every location of every refactoring filters
out the lines covered by any of their regions. -/
theorem removeRefs_foldl (refs : List Refactoring) (fs : List ImpactedFile) :
    refs.foldl
        (fun fs r => r.rightSideLocations.foldl (fun fs loc => removeLocation loc fs) fs)
        fs =
      fs.map (fun f =>
        { f with modified_lines :=
            f.modified_lines.filter (fun l => !coveredBy refs f.file_path l) }) := by
  induction refs generalizing fs with
  | nil => simp [coveredBy]
  | cons r refs ih =>
    rw [List.foldl_cons, removeLocation_foldl, ih, List.map_map]
    refine List.map_congr_left (fun f _ => ?_)
    simp only [Function.comp]
    rw [List.filter_filter]
    refine congrArg _ (List.filter_congr (fun l _ => ?_))
    simp [coveredBy, List.any_cons, Bool.not_or, Bool.and_comm]

/-- Claim C5: `get_impacted_files` removes from every impacted file whose
path matches a region exactly the modified lines `l` with
`startLine ≤ l ≤ endLine`, over all regions of all refactoring operations
of the fix revision itself, and then drops every impacted file whose
`modified_lines` became empty. -/
theorem getImpactedFiles_eq_spec (refs : List Refactoring) (files : List ImpactedFile) :
    getImpactedFiles refs files = impactedFilesSpec refs files := by
  unfold getImpactedFiles impactedFilesSpec
  rw [removeRefs_foldl]

/-- Concrete pin of the spec's filtering example: modified lines
`{3,4,5}` with a region covering 4-5 leaves `{3}`. -/
theorem getImpactedFiles_example_partial :
    getImpactedFiles [⟨"t", [⟨"f.java", 4, 5⟩]⟩] [⟨"f.java", [3, 4, 5]⟩]
      = [⟨"f.java", [3]⟩] := by decide

/-- Concrete pin of the spec's filtering example: a region covering 3-5
drops the file entirely. -/
theorem getImpactedFiles_example_drop :
    getImpactedFiles [⟨"t", [⟨"f.java", 3, 5⟩]⟩] [⟨"f.java", [3, 4, 5]⟩] = [] := by decide

/-! ## Recursive blame: `to_reblame` bookkeeping -/

theorem tbAppendLine_fst (key : String) (ln : Nat) (kv : String × ReblameCandidate) :
    (tbAppendLine key ln kv).1 = kv.1 := by
  unfold tbAppendLine
  split <;> rfl

theorem tbLines_cons (kv : String × ReblameCandidate) (tb : ToReblame) :
    tbLines (kv :: tb) = kv.2.modified_lines.toFinset ∪ tbLines tb := by
  simp [tbLines]

theorem tbLines_append_single (tb : ToReblame) (kv : String × ReblameCandidate) :
    tbLines (tb ++ [kv]) = tbLines tb ∪ kv.2.modified_lines.toFinset := by
  simp [tbLines]

theorem lookupKey_map_tbAppendLine (key : String) (ln : Nat) (k : String) (tb : ToReblame) :
    lookupKey k (tb.map (tbAppendLine key ln)) =
      (lookupKey k tb).map (fun rc =>
        if k = key then ⟨rc.rev, rc.file_path, rc.modified_lines ++ [ln]⟩ else rc) := by
  induction tb with
  | nil => simp [lookupKey]
  | cons kv rest ih =>
    by_cases hk : kv.1 = k
    · by_cases hkey : kv.1 = key
      · have hkk : k = key := hk ▸ hkey
        simp [lookupKey, tbAppendLine, hk, hkey, hkk]
      · have hkk : ¬(k = key) := fun h => hkey (hk.trans h)
        simp [lookupKey, tbAppendLine, hk, hkey, hkk]
    · by_cases hkey : kv.1 = key
      · have hkk : ¬(key = k) := fun h => hk (hkey.trans h)
        simp [lookupKey, tbAppendLine, hk, hkey, hkk, ih]
      · simp [lookupKey, tbAppendLine, hk, hkey, ih]

theorem lookupKey_tbAdd_self (tb : ToReblame) (rev fp : String) (ln : Nat) :
    ∃ rc, lookupKey (tbKey rev fp) (tbAdd tb rev fp ln) = some rc
      ∧ ln ∈ rc.modified_lines := by
  unfold tbAdd
  split
  · rename_i h
    obtain ⟨rc0, hrc0⟩ := Option.isSome_iff_exists.mp h
    refine ⟨⟨rc0.rev, rc0.file_path, rc0.modified_lines ++ [ln]⟩, ?_, by simp⟩
    rw [lookupKey_map_tbAppendLine, hrc0]
    simp
  · rename_i h
    have hnone : lookupKey (tbKey rev fp) tb = none :=
      Option.not_isSome_iff_eq_none.mp h
    refine ⟨⟨rev, fp, [ln]⟩, ?_, by simp⟩
    rw [lookupKey_append_right _ hnone]
    simp [lookupKey]

theorem lookupKey_tbAdd_mono {tb : ToReblame} {k : String} {rc : ReblameCandidate}
    (h : lookupKey k tb = some rc) (rev fp : String) (ln : Nat) :
    ∃ rc', lookupKey k (tbAdd tb rev fp ln) = some rc'
      ∧ ∀ x ∈ rc.modified_lines, x ∈ rc'.modified_lines := by
  unfold tbAdd
  split
  · rw [lookupKey_map_tbAppendLine, h]
    by_cases hk : k = tbKey rev fp
    · exact ⟨⟨rc.rev, rc.file_path, rc.modified_lines ++ [ln]⟩, by simp [hk],
        fun x hx => by simp [hx]⟩
    · exact ⟨rc, by simp [hk], fun x hx => hx⟩
  · exact ⟨rc, lookupKey_append_left _ h, fun x hx => hx⟩

theorem tbLines_map_tbAppendLine (key : String) (ln : Nat) (tb : ToReblame)
    (h : (lookupKey key tb).isSome) :
    tbLines (tb.map (tbAppendLine key ln)) = insert ln (tbLines tb) := by
  induction tb with
  | nil => simp [lookupKey] at h
  | cons kv rest ih =>
    rw [List.map_cons, tbLines_cons, tbLines_cons]
    by_cases hk : kv.1 = key
    · have hhd : (tbAppendLine key ln kv).2.modified_lines = kv.2.modified_lines ++ [ln] := by
        simp [tbAppendLine, hk]
      rw [hhd]
      by_cases h2 : (lookupKey key rest).isSome
      · rw [ih h2]
        ext x
        simp [List.toFinset_append]
        tauto
      · have hnone : lookupKey key rest = none := Option.not_isSome_iff_eq_none.mp h2
        have hrest : rest.map (tbAppendLine key ln) = rest := by
          calc rest.map (tbAppendLine key ln)
              = rest.map (fun kv' => kv') :=
                List.map_congr_left (fun kv' hkv' => by
                  unfold tbAppendLine
                  rw [if_neg (lookupKey_eq_none_iff.mp hnone kv' hkv')])
            _ = rest := List.map_id' rest
        rw [hrest]
        ext x
        simp [List.toFinset_append]
        tauto
    · have hhd : tbAppendLine key ln kv = kv := by
        unfold tbAppendLine
        rw [if_neg hk]
      rw [hhd]
      have h2 : (lookupKey key rest).isSome := by
        simpa [lookupKey, hk] using h
      rw [ih h2, Finset.union_insert]

theorem tbLines_tbAdd (tb : ToReblame) (rev fp : String) (ln : Nat) :
    tbLines (tbAdd tb rev fp ln) = insert ln (tbLines tb) := by
  unfold tbAdd
  split
  · rename_i h
    exact tbLines_map_tbAppendLine _ _ _ h
  · rw [tbLines_append_single]
    ext x
    simp
    tauto

/-! ## Recursive blame: the candidate partition -/

theorem scanLoc_foldl_snd (b : BlameData) (locs : List Location) (acc : ToReblame × Bool) :
    (locs.foldl (scanLoc b) acc).2 =
      (acc.2 && !locs.any (fun loc => locCovers loc b.file_path b.line_num)) := by
  induction locs generalizing acc with
  | nil => simp
  | cons loc locs ih =>
    rw [List.foldl_cons, ih]
    by_cases hcov : locCovers loc b.file_path b.line_num = true
    · simp [scanLoc, hcov]
    · simp only [Bool.not_eq_true] at hcov
      simp [scanLoc, hcov]

theorem scanRef_foldl_snd (b : BlameData) (refs : List Refactoring) (acc : ToReblame × Bool) :
    (refs.foldl (scanRef b) acc).2 =
      (acc.2 && !coveredBy refs b.file_path b.line_num) := by
  induction refs generalizing acc with
  | nil => simp [coveredBy]
  | cons r refs ih =>
    rw [List.foldl_cons]
    show (refs.foldl (scanRef b) (scanRef b acc r)).2 = _
    rw [ih]
    unfold scanRef
    rw [scanLoc_foldl_snd]
    simp [coveredBy, Bool.and_assoc, Bool.not_or]

theorem processCandidate_snd (refs : List Refactoring) (tb : ToReblame) (b : BlameData) :
    (processCandidate refs tb b).2 = !coveredBy refs b.file_path b.line_num := by
  unfold processCandidate
  rw [scanRef_foldl_snd]
  simp

theorem scanLoc_foldl_of_none (b : BlameData) (locs : List Location)
    (acc : ToReblame × Bool)
    (h : locs.any (fun loc => locCovers loc b.file_path b.line_num) = false) :
    locs.foldl (scanLoc b) acc = acc := by
  induction locs generalizing acc with
  | nil => rfl
  | cons loc locs ih =>
    simp only [List.any_cons, Bool.or_eq_false_iff] at h
    rw [List.foldl_cons]
    unfold scanLoc
    rw [if_neg (by simp [h.1])]
    exact ih acc h.2

theorem scanRef_foldl_of_not_covered (b : BlameData) (refs : List Refactoring)
    (acc : ToReblame × Bool)
    (h : coveredBy refs b.file_path b.line_num = false) :
    refs.foldl (scanRef b) acc = acc := by
  induction refs generalizing acc with
  | nil => rfl
  | cons r refs ih =>
    simp only [coveredBy, List.any_cons, Bool.or_eq_false_iff] at h
    rw [List.foldl_cons]
    have : scanRef b acc r = acc := scanLoc_foldl_of_none b _ acc h.1
    rw [this]
    exact ih acc h.2

theorem processCandidate_of_not_covered (refs : List Refactoring) (tb : ToReblame)
    (b : BlameData) (h : coveredBy refs b.file_path b.line_num = false) :
    processCandidate refs tb b = (tb, true) :=
  scanRef_foldl_of_not_covered b refs (tb, true) h

theorem scanLoc_foldl_lines (b : BlameData) (locs : List Location) (acc : ToReblame × Bool) :
    tbLines (locs.foldl (scanLoc b) acc).1 =
      if locs.any (fun loc => locCovers loc b.file_path b.line_num) then
        insert b.line_num (tbLines acc.1)
      else tbLines acc.1 := by
  induction locs generalizing acc with
  | nil => simp
  | cons loc locs ih =>
    rw [List.foldl_cons, ih]
    by_cases hcov : locCovers loc b.file_path b.line_num = true
    · have hstep : tbLines (scanLoc b acc loc).1 = insert b.line_num (tbLines acc.1) := by
        simp [scanLoc, hcov, tbLines_tbAdd]
      rw [hstep]
      simp only [List.any_cons, hcov, Bool.true_or, if_true]
      split <;> simp
    · have hstep : scanLoc b acc loc = acc := by
        simp [scanLoc, hcov]
      rw [hstep]
      simp only [Bool.not_eq_true] at hcov
      simp [List.any_cons, hcov]

theorem scanRef_foldl_lines (b : BlameData) (refs : List Refactoring) (acc : ToReblame × Bool) :
    tbLines (refs.foldl (scanRef b) acc).1 =
      if coveredBy refs b.file_path b.line_num then
        insert b.line_num (tbLines acc.1)
      else tbLines acc.1 := by
  induction refs generalizing acc with
  | nil => simp [coveredBy]
  | cons r refs ih =>
    rw [List.foldl_cons]
    show tbLines (refs.foldl (scanRef b) (scanRef b acc r)).1 = _
    rw [ih]
    unfold scanRef
    rw [scanLoc_foldl_lines]
    by_cases h1 : r.rightSideLocations.any (fun loc => locCovers loc b.file_path b.line_num) = true
    · by_cases h2 : coveredBy refs b.file_path b.line_num = true <;>
        simp [coveredBy, List.any_cons, h1, h2]
    · simp only [Bool.not_eq_true] at h1
      by_cases h2 : coveredBy refs b.file_path b.line_num = true <;>
        simp [coveredBy, List.any_cons, h1, h2]

theorem processCandidate_lines (refs : List Refactoring) (tb : ToReblame) (b : BlameData) :
    tbLines (processCandidate refs tb b).1 =
      if coveredBy refs b.file_path b.line_num then insert b.line_num (tbLines tb)
      else tbLines tb :=
  scanRef_foldl_lines b refs (tb, true)

theorem scanLoc_foldl_pres (b : BlameData) (locs : List Location) (acc : ToReblame × Bool)
    (P : ToReblame → Prop) (hP : P acc.1)
    (hAdd : ∀ tb, P tb → P (tbAdd tb b.commit b.file_path b.line_num)) :
    P (locs.foldl (scanLoc b) acc).1 :=
  foldl_invariant (fun a => P a.1) (scanLoc b) locs acc hP
    (fun a loc _ hp => by
      unfold scanLoc
      split
      · exact hAdd _ hp
      · exact hp)

theorem scanRef_foldl_pres (b : BlameData) (refs : List Refactoring) (acc : ToReblame × Bool)
    (P : ToReblame → Prop) (hP : P acc.1)
    (hAdd : ∀ tb, P tb → P (tbAdd tb b.commit b.file_path b.line_num)) :
    P (refs.foldl (scanRef b) acc).1 :=
  foldl_invariant (fun a => P a.1) (scanRef b) refs acc hP
    (fun a _ _ hp => scanLoc_foldl_pres b _ a P hp hAdd)

theorem processCandidate_pres (refs : List Refactoring) (tb : ToReblame) (b : BlameData)
    (P : ToReblame → Prop) (hP : P tb)
    (hAdd : ∀ tb', P tb' → P (tbAdd tb' b.commit b.file_path b.line_num)) :
    P (processCandidate refs tb b).1 :=
  scanRef_foldl_pres b refs (tb, true) P hP hAdd

theorem partitionStep_fst (refacs : String → List Refactoring)
    (acc : ToReblame × Finset BlameData) (b : BlameData) :
    (partitionStep refacs acc b).1 = (processCandidate (refacs b.commit) acc.1 b).1 := rfl

theorem partition_foldl_pres (refacs : String → List Refactoring) (cs : List BlameData)
    (acc : ToReblame × Finset BlameData) (P : ToReblame → Prop) (hP : P acc.1)
    (hAdd : ∀ tb b, b ∈ cs → P tb → P (tbAdd tb b.commit b.file_path b.line_num)) :
    P (cs.foldl (partitionStep refacs) acc).1 :=
  foldl_invariant (fun a => P a.1) (partitionStep refacs) cs acc hP
    (fun a b hb hp => by
      show P (partitionStep refacs a b).1
      rw [partitionStep_fst]
      exact processCandidate_pres _ _ _ P hp (fun tb' hp' => hAdd tb' b hb hp'))

theorem scanLoc_foldl_established (b : BlameData) (locs : List Location)
    (acc : ToReblame × Bool)
    (h : locs.any (fun loc => locCovers loc b.file_path b.line_num) = true) :
    ∃ rc, lookupKey (tbKey b.commit b.file_path) (locs.foldl (scanLoc b) acc).1 = some rc
      ∧ b.line_num ∈ rc.modified_lines := by
  induction locs generalizing acc with
  | nil => simp at h
  | cons loc locs ih =>
    rw [List.foldl_cons]
    by_cases hcov : locCovers loc b.file_path b.line_num = true
    · have hstep : scanLoc b acc loc = (tbAdd acc.1 b.commit b.file_path b.line_num, false) := by
        simp [scanLoc, hcov]
      rw [hstep]
      refine scanLoc_foldl_pres b locs _
        (fun tb => ∃ rc, lookupKey (tbKey b.commit b.file_path) tb = some rc
          ∧ b.line_num ∈ rc.modified_lines)
        (lookupKey_tbAdd_self _ _ _ _) ?_
      rintro tb ⟨rc, hrc, hmem⟩
      obtain ⟨rc', hrc', hsub⟩ := lookupKey_tbAdd_mono hrc b.commit b.file_path b.line_num
      exact ⟨rc', hrc', hsub _ hmem⟩
    · have hstep : scanLoc b acc loc = acc := by
        simp [scanLoc, hcov]
      rw [hstep]
      simp only [List.any_cons, Bool.or_eq_true] at h
      rcases h with h | h
      · exact absurd h hcov
      · exact ih acc h

theorem scanRef_foldl_established (b : BlameData) (refs : List Refactoring)
    (acc : ToReblame × Bool)
    (h : coveredBy refs b.file_path b.line_num = true) :
    ∃ rc, lookupKey (tbKey b.commit b.file_path) (refs.foldl (scanRef b) acc).1 = some rc
      ∧ b.line_num ∈ rc.modified_lines := by
  induction refs generalizing acc with
  | nil => simp [coveredBy] at h
  | cons r refs ih =>
    rw [List.foldl_cons]
    by_cases hr : r.rightSideLocations.any (fun loc => locCovers loc b.file_path b.line_num) = true
    · have hest := scanLoc_foldl_established b r.rightSideLocations acc hr
      refine scanRef_foldl_pres b refs _
        (fun tb => ∃ rc, lookupKey (tbKey b.commit b.file_path) tb = some rc
          ∧ b.line_num ∈ rc.modified_lines) hest ?_
      rintro tb ⟨rc, hrc, hmem⟩
      obtain ⟨rc', hrc', hsub⟩ := lookupKey_tbAdd_mono hrc b.commit b.file_path b.line_num
      exact ⟨rc', hrc', hsub _ hmem⟩
    · have hstep : scanRef b acc r = acc := by
        unfold scanRef
        exact scanLoc_foldl_of_none b _ acc (by simpa using hr)
      rw [hstep]
      simp only [coveredBy, List.any_cons, Bool.or_eq_true] at h
      rcases h with h | h
      · exact absurd h hr
      · exact ih acc h

theorem processCandidate_established (refs : List Refactoring) (tb : ToReblame)
    (b : BlameData) (h : coveredBy refs b.file_path b.line_num = true) :
    ∃ rc, lookupKey (tbKey b.commit b.file_path) (processCandidate refs tb b).1 = some rc
      ∧ b.line_num ∈ rc.modified_lines :=
  scanRef_foldl_established b refs (tb, true) h

theorem partition_established (refacs : String → List Refactoring) (cs : List BlameData)
    (b : BlameData) (hb : b ∈ cs)
    (h : coveredBy (refacs b.commit) b.file_path b.line_num = true) :
    ∃ rc, lookupKey (tbKey b.commit b.file_path) (partitionCandidates refacs cs).1 = some rc
      ∧ b.line_num ∈ rc.modified_lines := by
  obtain ⟨s, t, rfl⟩ := List.append_of_mem hb
  unfold partitionCandidates
  rw [List.foldl_append, List.foldl_cons]
  refine partition_foldl_pres refacs t _
    (fun tb => ∃ rc, lookupKey (tbKey b.commit b.file_path) tb = some rc
      ∧ b.line_num ∈ rc.modified_lines) ?_ ?_
  · rw [partitionStep_fst]
    exact processCandidate_established _ _ _ h
  · rintro tb b' _ ⟨rc, hrc, hmem⟩
    obtain ⟨rc', hrc', hsub⟩ := lookupKey_tbAdd_mono hrc b'.commit b'.file_path b'.line_num
    exact ⟨rc', hrc', hsub _ hmem⟩

theorem partition_accepted (refacs : String → List Refactoring) (cs : List BlameData) :
    ∀ x ∈ (partitionCandidates refacs cs).2,
      x ∈ cs ∧ coveredBy (refacs x.commit) x.file_path x.line_num = false := by
  refine foldl_invariant
    (fun acc => ∀ x ∈ acc.2,
      x ∈ cs ∧ coveredBy (refacs x.commit) x.file_path x.line_num = false)
    (partitionStep refacs) cs ([], ∅) (by simp) ?_
  intro acc b hb hP x hx
  unfold partitionStep at hx
  dsimp only at hx
  rw [processCandidate_snd] at hx
  by_cases hcov : coveredBy (refacs b.commit) b.file_path b.line_num = true
  · rw [hcov] at hx
    simp only [Bool.not_true, Bool.false_eq_true, if_false] at hx
    exact hP x hx
  · simp only [Bool.not_eq_true] at hcov
    rw [hcov] at hx
    simp only [Bool.not_false, if_true, Finset.mem_insert] at hx
    rcases hx with rfl | hx
    · exact ⟨hb, hcov⟩
    · exact hP x hx

theorem partition_foldl_lines (refacs : String → List Refactoring) (cs : List BlameData) :
    ∀ acc : ToReblame × Finset BlameData,
      resLines (cs.foldl (partitionStep refacs) acc).2
          ∪ tbLines (cs.foldl (partitionStep refacs) acc).1
        = (resLines acc.2 ∪ tbLines acc.1) ∪ (cs.map (fun b => b.line_num)).toFinset := by
  induction cs with
  | nil => simp
  | cons b cs ih =>
    intro acc
    rw [List.foldl_cons, ih]
    have hstep : resLines (partitionStep refacs acc b).2 ∪ tbLines (partitionStep refacs acc b).1
        = insert b.line_num (resLines acc.2 ∪ tbLines acc.1) := by
      unfold partitionStep
      dsimp only
      rw [processCandidate_snd, processCandidate_lines]
      by_cases hcov : coveredBy (refacs b.commit) b.file_path b.line_num = true
      · rw [hcov]
        simp only [Bool.not_true, Bool.false_eq_true, if_false, if_true]
        ext x
        simp
      · simp only [Bool.not_eq_true] at hcov
        rw [hcov]
        simp only [Bool.not_false, if_true, Bool.false_eq_true, if_false]
        rw [resLines, Finset.image_insert]
        ext x
        simp [resLines]
    rw [hstep]
    ext x
    simp

theorem partition_lines (refacs : String → List Refactoring) (cs : List BlameData) :
    resLines (partitionCandidates refacs cs).2 ∪ tbLines (partitionCandidates refacs cs).1
      = (cs.map (fun b => b.line_num)).toFinset := by
  unfold partitionCandidates
  rw [partition_foldl_lines]
  simp [resLines, tbLines]

theorem tbAdd_rev_mem (tb : ToReblame) (rev fp : String) (ln : Nat) :
    ∀ kv ∈ tbAdd tb rev fp ln, kv.2.rev = rev ∨ ∃ kv0 ∈ tb, kv.2.rev = kv0.2.rev := by
  unfold tbAdd
  split
  · intro kv hkv
    obtain ⟨kv0, hkv0, rfl⟩ := List.mem_map.mp hkv
    right
    refine ⟨kv0, hkv0, ?_⟩
    unfold tbAppendLine
    split <;> rfl
  · intro kv hkv
    rcases List.mem_append.mp hkv with h1 | h2
    · exact Or.inr ⟨kv, h1, rfl⟩
    · left
      simp only [List.mem_singleton] at h2
      subst h2
      rfl

theorem partition_tb_rev (refacs : String → List Refactoring) (cs : List BlameData) :
    ∀ kv ∈ (partitionCandidates refacs cs).1, ∃ b ∈ cs, kv.2.rev = b.commit := by
  refine partition_foldl_pres refacs cs ([], ∅)
    (fun tb => ∀ kv ∈ tb, ∃ b ∈ cs, kv.2.rev = b.commit) (by simp) ?_
  intro tb b hb hP kv hkv
  rcases tbAdd_rev_mem tb b.commit b.file_path b.line_num kv hkv with h | ⟨kv0, hkv0, heq⟩
  · exact ⟨b, hb, h⟩
  · obtain ⟨b', hb', heq'⟩ := hP kv0 hkv0
    exact ⟨b', hb', heq.trans heq'⟩

theorem tbAdd_nodup_keys {tb : ToReblame} (h : (tb.map (fun kv => kv.1)).Nodup)
    (rev fp : String) (ln : Nat) :
    ((tbAdd tb rev fp ln).map (fun kv => kv.1)).Nodup := by
  unfold tbAdd
  split
  · have hmap : (tb.map (tbAppendLine (tbKey rev fp) ln)).map (fun kv => kv.1)
        = tb.map (fun kv => kv.1) := by
      rw [List.map_map]
      exact List.map_congr_left (fun kv _ => tbAppendLine_fst _ _ kv)
    rw [hmap]
    exact h
  · rename_i hnone
    have hn : lookupKey (tbKey rev fp) tb = none := Option.not_isSome_iff_eq_none.mp hnone
    have hk : tbKey rev fp ∉ tb.map (fun kv => kv.1) := by
      intro hmem
      obtain ⟨kv, hkv, hfst⟩ := List.mem_map.mp hmem
      exact (lookupKey_eq_none_iff.mp hn kv hkv) hfst
    simp [List.nodup_append, h, hk]

theorem tbAdd_shape {tb : ToReblame}
    (h : ∀ kv ∈ tb, kv.1 = tbKey kv.2.rev kv.2.file_path) (rev fp : String) (ln : Nat) :
    ∀ kv ∈ tbAdd tb rev fp ln, kv.1 = tbKey kv.2.rev kv.2.file_path := by
  unfold tbAdd
  split
  · intro kv hkv
    obtain ⟨kv0, hkv0, rfl⟩ := List.mem_map.mp hkv
    have h0 := h kv0 hkv0
    unfold tbAppendLine
    split
    · simpa using h0
    · exact h0
  · intro kv hkv
    rcases List.mem_append.mp hkv with h1 | h2
    · exact h kv h1
    · simp only [List.mem_singleton] at h2
      subst h2
      rfl

theorem partition_tb_nodup_keys (refacs : String → List Refactoring) (cs : List BlameData) :
    ((partitionCandidates refacs cs).1.map (fun kv => kv.1)).Nodup :=
  partition_foldl_pres refacs cs ([], ∅)
    (fun tb => (tb.map (fun kv => kv.1)).Nodup) (by simp)
    (fun _ b _ hp => tbAdd_nodup_keys hp b.commit b.file_path b.line_num)

theorem partition_tb_shape (refacs : String → List Refactoring) (cs : List BlameData) :
    ∀ kv ∈ (partitionCandidates refacs cs).1, kv.1 = tbKey kv.2.rev kv.2.file_path :=
  partition_foldl_pres refacs cs ([], ∅)
    (fun tb => ∀ kv ∈ tb, kv.1 = tbKey kv.2.rev kv.2.file_path) (by simp)
    (fun _ b _ hp => tbAdd_shape hp b.commit b.file_path b.line_num)

/-! ## Recursive blame: the reblame loop -/

theorem reblameLoop_cons
    (recurse : String → String → List Nat → Option (List String) → BlameOutcome)
    (ignore : Option (List String)) (kv : String × ReblameCandidate) (tb : ToReblame)
    (acc : BlameOutcome) :
    reblameLoop recurse ignore (kv :: tb) acc =
      reblameLoop recurse ignore tb (reblameStep recurse ignore acc kv.2) := rfl

theorem reblameLoop_noneTypeError
    (recurse : String → String → List Nat → Option (List String) → BlameOutcome)
    (ignore : Option (List String)) (tb : ToReblame) :
    reblameLoop recurse ignore tb .noneTypeError = .noneTypeError := by
  induction tb with
  | nil => rfl
  | cons kv tb ih => exact ih

theorem reblameLoop_fuelOut
    (recurse : String → String → List Nat → Option (List String) → BlameOutcome)
    (ignore : Option (List String)) (tb : ToReblame) :
    reblameLoop recurse ignore tb .fuelOut = .fuelOut := by
  induction tb with
  | nil => rfl
  | cons kv tb ih => exact ih

theorem droppedLines_append (d1 d2 : List ReblameCandidate) :
    droppedLines (d1 ++ d2) = droppedLines d1 ∪ droppedLines d2 := by
  simp [droppedLines]

theorem resLines_union (s t : Finset BlameData) :
    resLines (s ∪ t) = resLines s ∪ resLines t :=
  Finset.image_union _ _

theorem reblameStep_ok_mem
    (recurse : String → String → List Nat → Option (List String) → BlameOutcome)
    (ig : List String) (r : Finset BlameData) (d : List ReblameCandidate)
    (rc : ReblameCandidate) (h : rc.rev ∈ ig) :
    reblameStep recurse (some ig) (.ok r d) rc = .ok r (d ++ [rc]) := by
  simp [reblameStep, h]


theorem reblameStep_ok_not_mem_ok
    (recurse : String → String → List Nat → Option (List String) → BlameOutcome)
    (ig : List String) (r : Finset BlameData) (d : List ReblameCandidate)
    (rc : ReblameCandidate) (res2 : Finset BlameData) (dropped2 : List ReblameCandidate)
    (h : rc.rev ∉ ig)
    (hrec : recurse rc.rev rc.file_path rc.modified_lines (some (ig ++ [rc.rev]))
      = .ok res2 dropped2) :
    reblameStep recurse (some ig) (.ok r d) rc = .ok (r ∪ res2) (d ++ dropped2) := by
  simp [reblameStep, h, hrec]

theorem reblameStep_ok_not_mem_nte
    (recurse : String → String → List Nat → Option (List String) → BlameOutcome)
    (ig : List String) (r : Finset BlameData) (d : List ReblameCandidate)
    (rc : ReblameCandidate) (h : rc.rev ∉ ig)
    (hrec : recurse rc.rev rc.file_path rc.modified_lines (some (ig ++ [rc.rev]))
      = .noneTypeError) :
    reblameStep recurse (some ig) (.ok r d) rc = .noneTypeError := by
  simp [reblameStep, h, hrec]

theorem reblameStep_ok_not_mem_fo
    (recurse : String → String → List Nat → Option (List String) → BlameOutcome)
    (ig : List String) (r : Finset BlameData) (d : List ReblameCandidate)
    (rc : ReblameCandidate) (h : rc.rev ∉ ig)
    (hrec : recurse rc.rev rc.file_path rc.modified_lines (some (ig ++ [rc.rev]))
      = .fuelOut) :
    reblameStep recurse (some ig) (.ok r d) rc = .fuelOut := by
  simp [reblameStep, h, hrec]

theorem reblameLoop_ok_sub
    (recurse : String → String → List Nat → Option (List String) → BlameOutcome)
    (ig : List String) (tb : ToReblame) :
    ∀ r d res dropped,
      reblameLoop recurse (some ig) tb (.ok r d) = .ok res dropped → r ⊆ res := by
  induction tb with
  | nil =>
    intro r d res dropped h
    cases h
    exact Finset.Subset.refl r
  | cons kv tb ih =>
    intro r d res dropped h
    rw [reblameLoop_cons] at h
    by_cases hmem : kv.2.rev ∈ ig
    · rw [reblameStep_ok_mem recurse ig r d kv.2 hmem] at h
      exact ih r _ res dropped h
    · cases hrec : recurse kv.2.rev kv.2.file_path kv.2.modified_lines
          (some (ig ++ [kv.2.rev])) with
      | ok res2 dropped2 =>
        rw [reblameStep_ok_not_mem_ok recurse ig r d kv.2 res2 dropped2 hmem hrec] at h
        exact (Finset.subset_union_left).trans (ih _ _ res dropped h)
      | noneTypeError =>
        rw [reblameStep_ok_not_mem_nte recurse ig r d kv.2 hmem hrec,
          reblameLoop_noneTypeError] at h
        cases h
      | fuelOut =>
        rw [reblameStep_ok_not_mem_fo recurse ig r d kv.2 hmem hrec,
          reblameLoop_fuelOut] at h
        cases h

theorem reblameLoop_ok_mem
    (recurse : String → String → List Nat → Option (List String) → BlameOutcome)
    (ig : List String) (tb : ToReblame) :
    ∀ r d res dropped,
      reblameLoop recurse (some ig) tb (.ok r d) = .ok res dropped →
      ∀ x ∈ res, x ∈ r ∨ ∃ kv ∈ tb, kv.2.rev ∉ ig ∧ ∃ res2 dropped2,
        recurse kv.2.rev kv.2.file_path kv.2.modified_lines (some (ig ++ [kv.2.rev]))
            = .ok res2 dropped2
          ∧ x ∈ res2 := by
  induction tb with
  | nil =>
    intro r d res dropped h x hx
    cases h
    exact Or.inl hx
  | cons kv tb ih =>
    intro r d res dropped h x hx
    rw [reblameLoop_cons] at h
    by_cases hmem : kv.2.rev ∈ ig
    · rw [reblameStep_ok_mem recurse ig r d kv.2 hmem] at h
      rcases ih r _ res dropped h x hx with h1 | ⟨kv', hkv', hni, hrest⟩
      · exact Or.inl h1
      · exact Or.inr ⟨kv', List.mem_cons_of_mem kv hkv', hni, hrest⟩
    · cases hrec : recurse kv.2.rev kv.2.file_path kv.2.modified_lines
          (some (ig ++ [kv.2.rev])) with
      | ok res2 dropped2 =>
        rw [reblameStep_ok_not_mem_ok recurse ig r d kv.2 res2 dropped2 hmem hrec] at h
        rcases ih _ _ res dropped h x hx with h1 | ⟨kv', hkv', hni, hrest⟩
        · rcases Finset.mem_union.mp h1 with h2 | h2
          · exact Or.inl h2
          · exact Or.inr ⟨kv, List.mem_cons_self kv tb, hmem, res2, dropped2, hrec, h2⟩
        · exact Or.inr ⟨kv', List.mem_cons_of_mem kv hkv', hni, hrest⟩
      | noneTypeError =>
        rw [reblameStep_ok_not_mem_nte recurse ig r d kv.2 hmem hrec,
          reblameLoop_noneTypeError] at h
        cases h
      | fuelOut =>
        rw [reblameStep_ok_not_mem_fo recurse ig r d kv.2 hmem hrec,
          reblameLoop_fuelOut] at h
        cases h

theorem reblameLoop_ok_branch
    (recurse : String → String → List Nat → Option (List String) → BlameOutcome)
    (ig : List String) (tb : ToReblame) :
    ∀ r d res dropped,
      reblameLoop recurse (some ig) tb (.ok r d) = .ok res dropped →
      ∀ kv ∈ tb, kv.2.rev ∉ ig →
        ∃ res2 dropped2,
          recurse kv.2.rev kv.2.file_path kv.2.modified_lines (some (ig ++ [kv.2.rev]))
              = .ok res2 dropped2
            ∧ res2 ⊆ res := by
  induction tb with
  | nil =>
    intro r d res dropped _ kv hkv
    simp at hkv
  | cons kv0 tb ih =>
    intro r d res dropped h kv hkv hni
    rw [reblameLoop_cons] at h
    by_cases hmem : kv0.2.rev ∈ ig
    · rw [reblameStep_ok_mem recurse ig r d kv0.2 hmem] at h
      rcases List.mem_cons.mp hkv with rfl | hkv'
      · exact absurd hmem hni
      · exact ih r _ res dropped h kv hkv' hni
    · cases hrec : recurse kv0.2.rev kv0.2.file_path kv0.2.modified_lines
          (some (ig ++ [kv0.2.rev])) with
      | ok res2 dropped2 =>
        rw [reblameStep_ok_not_mem_ok recurse ig r d kv0.2 res2 dropped2 hmem hrec] at h
        rcases List.mem_cons.mp hkv with rfl | hkv'
        · exact ⟨res2, dropped2, hrec,
            (Finset.subset_union_right).trans (reblameLoop_ok_sub recurse ig tb _ _ res dropped h)⟩
        · exact ih _ _ res dropped h kv hkv' hni
      | noneTypeError =>
        rw [reblameStep_ok_not_mem_nte recurse ig r d kv0.2 hmem hrec,
          reblameLoop_noneTypeError] at h
        cases h
      | fuelOut =>
        rw [reblameStep_ok_not_mem_fo recurse ig r d kv0.2 hmem hrec,
          reblameLoop_fuelOut] at h
        cases h

theorem reblameLoop_ok_total
    (recurse : String → String → List Nat → Option (List String) → BlameOutcome)
    (ig : List String) (tb : ToReblame)
    (hrec : ∀ kv ∈ tb, kv.2.rev ∉ ig → ∃ res2 dropped2,
      recurse kv.2.rev kv.2.file_path kv.2.modified_lines (some (ig ++ [kv.2.rev]))
        = .ok res2 dropped2) :
    ∀ r d, ∃ res dropped, reblameLoop recurse (some ig) tb (.ok r d) = .ok res dropped := by
  induction tb with
  | nil =>
    intro r d
    exact ⟨r, d, rfl⟩
  | cons kv tb ih =>
    intro r d
    rw [reblameLoop_cons]
    by_cases hmem : kv.2.rev ∈ ig
    · rw [reblameStep_ok_mem recurse ig r d kv.2 hmem]
      exact ih (fun kv' h' hni => hrec kv' (List.mem_cons_of_mem kv h') hni) r _
    · obtain ⟨res2, dropped2, h2⟩ := hrec kv (List.mem_cons_self kv tb) hmem
      rw [reblameStep_ok_not_mem_ok recurse ig r d kv.2 res2 dropped2 hmem h2]
      exact ih (fun kv' h' hni => hrec kv' (List.mem_cons_of_mem kv h') hni) _ _

theorem reblameLoop_ok_lines
    (recurse : String → String → List Nat → Option (List String) → BlameOutcome)
    (ig : List String) (tb : ToReblame)
    (hrec : ∀ kv ∈ tb, kv.2.rev ∉ ig → ∀ res2 dropped2,
      recurse kv.2.rev kv.2.file_path kv.2.modified_lines (some (ig ++ [kv.2.rev]))
          = .ok res2 dropped2 →
        resLines res2 ∪ droppedLines dropped2 = kv.2.modified_lines.toFinset) :
    ∀ r d res dropped,
      reblameLoop recurse (some ig) tb (.ok r d) = .ok res dropped →
      resLines res ∪ droppedLines dropped
        = (resLines r ∪ droppedLines d) ∪ tbLines tb := by
  induction tb with
  | nil =>
    intro r d res dropped h
    cases h
    simp [tbLines]
  | cons kv tb ih =>
    intro r d res dropped h
    rw [reblameLoop_cons] at h
    rw [tbLines_cons]
    by_cases hmem : kv.2.rev ∈ ig
    · rw [reblameStep_ok_mem recurse ig r d kv.2 hmem] at h
      rw [ih (fun kv' h' => hrec kv' (List.mem_cons_of_mem kv h')) r _ res dropped h]
      rw [droppedLines_append]
      have hone : droppedLines [kv.2] = kv.2.modified_lines.toFinset := by
        simp [droppedLines]
      rw [hone]
      ext x
      simp
    · cases hr2 : recurse kv.2.rev kv.2.file_path kv.2.modified_lines
          (some (ig ++ [kv.2.rev])) with
      | ok res2 dropped2 =>
        rw [reblameStep_ok_not_mem_ok recurse ig r d kv.2 res2 dropped2 hmem hr2] at h
        rw [ih (fun kv' h' => hrec kv' (List.mem_cons_of_mem kv h')) _ _ res dropped h]
        rw [resLines_union, droppedLines_append]
        have hsub := hrec kv (List.mem_cons_self kv tb) hmem res2 dropped2 hr2
        rw [← hsub]
        ext x
        simp
        tauto
      | noneTypeError =>
        rw [reblameStep_ok_not_mem_nte recurse ig r d kv.2 hmem hr2,
          reblameLoop_noneTypeError] at h
        cases h
      | fuelOut =>
        rw [reblameStep_ok_not_mem_fo recurse ig r d kv.2 hmem hr2,
          reblameLoop_fuelOut] at h
        cases h

theorem reblameLoop_all_dropped
    (recurse : String → String → List Nat → Option (List String) → BlameOutcome)
    (ig : List String) (tb : ToReblame)
    (hall : ∀ kv ∈ tb, kv.2.rev ∈ ig) :
    ∀ r d, reblameLoop recurse (some ig) tb (.ok r d)
      = .ok r (d ++ tb.map (fun kv => kv.2)) := by
  induction tb with
  | nil =>
    intro r d
    simp [reblameLoop]
  | cons kv tb ih =>
    intro r d
    rw [reblameLoop_cons,
      reblameStep_ok_mem recurse ig r d kv.2 (hall kv (List.mem_cons_self kv tb)),
      ih (fun kv' h' => hall kv' (List.mem_cons_of_mem kv h')) r _]
    simp

theorem reblameLoop_none_head
    (recurse : String → String → List Nat → Option (List String) → BlameOutcome)
    (kv : String × ReblameCandidate) (tb : ToReblame) (r : Finset BlameData)
    (d : List ReblameCandidate) :
    reblameLoop recurse none (kv :: tb) (.ok r d) = .noneTypeError := by
  rw [reblameLoop_cons]
  have hstep : reblameStep recurse none (.ok r d) kv.2 = .noneTypeError := rfl
  rw [hstep, reblameLoop_noneTypeError]

/-! ## Recursive blame: top-level claim theorems -/

theorem reblameLoop_nil
    (recurse : String → String → List Nat → Option (List String) → BlameOutcome)
    (ignore : Option (List String)) (acc : BlameOutcome) :
    reblameLoop recurse ignore [] acc = acc := rfl

theorem toReblameOf_eq (env : Env) (rev fp : String) (lines : List Nat)
    (ignore : Option (List String)) :
    toReblameOf env rev fp lines ignore
      = (partitionCandidates env.refactorings (env.baseBlame rev fp lines ignore)).1 := rfl

theorem acceptedOf_eq (env : Env) (rev fp : String) (lines : List Nat)
    (ignore : Option (List String)) :
    acceptedOf env rev fp lines ignore
      = (partitionCandidates env.refactorings (env.baseBlame rev fp lines ignore)).2 := rfl

theorem blameF_succ (env : Env) (fuel : Nat) (rev fp : String) (lines : List Nat)
    (ignore : Option (List String)) :
    blameF env (fuel + 1) rev fp lines ignore =
      reblameLoop (fun r f l i => blameF env fuel r f l i) ignore
        (toReblameOf env rev fp lines ignore)
        (.ok (acceptedOf env rev fp lines ignore) []) := rfl

theorem coveredBy_false {refs : List Refactoring} {fp : String} {ln : Nat}
    (h : coveredBy refs fp ln = false) :
    ∀ r ∈ refs, ∀ loc ∈ r.rightSideLocations, locCovers loc fp ln = false := by
  intro r hr loc hloc
  by_contra hne
  simp only [Bool.not_eq_false] at hne
  have hc : coveredBy refs fp ln = true := by
    simp only [coveredBy, List.any_eq_true]
    exact ⟨r, hr, loc, hloc, hne⟩
  rw [hc] at h
  cases h

/-- Claim C1: no refactoring-only attribution survives — in every `ok`
outcome of `_blame`, at every recursion depth, no region of any
refactoring operation recorded for an attribution's revision covers that
attribution's `(file_path, line_num)`. -/
theorem blame_no_refactoring_attribution (env : Env) (fuel : Nat) :
    ∀ rev fp lines ignore res dropped,
      blameF env fuel rev fp lines ignore = .ok res dropped →
      ∀ b ∈ res, ∀ r ∈ env.refactorings b.commit, ∀ loc ∈ r.rightSideLocations,
        locCovers loc b.file_path b.line_num = false := by
  induction fuel with
  | zero =>
    intro rev fp lines ignore res dropped h
    cases h
  | succ fuel ih =>
    intro rev fp lines ignore res dropped h b hb r hr loc hloc
    rw [blameF_succ] at h
    cases ignore with
    | none =>
      cases htb : toReblameOf env rev fp lines none with
      | nil =>
        rw [htb, reblameLoop_nil] at h
        cases h
        have hacc : b ∈ (partitionCandidates env.refactorings
            (env.baseBlame rev fp lines none)).2 := by
          rw [← acceptedOf_eq]
          exact hb
        exact coveredBy_false
          (partition_accepted env.refactorings (env.baseBlame rev fp lines none) b hacc).2
          r hr loc hloc
      | cons kv tb =>
        rw [htb, reblameLoop_none_head] at h
        cases h
    | some ig =>
      rcases reblameLoop_ok_mem (fun r f l i => blameF env fuel r f l i) ig
          (toReblameOf env rev fp lines (some ig)) _ [] res dropped h b hb with
        h1 | ⟨kv, _, _, res2, dropped2, hrec, hb2⟩
      · have hacc : b ∈ (partitionCandidates env.refactorings
            (env.baseBlame rev fp lines (some ig))).2 := by
          rw [← acceptedOf_eq]
          exact h1
        exact coveredBy_false
          (partition_accepted env.refactorings (env.baseBlame rev fp lines (some ig)) b hacc).2
          r hr loc hloc
      · exact ih kv.2.rev kv.2.file_path kv.2.modified_lines (some (ig ++ [kv.2.rev]))
          res2 dropped2 hrec b hb2 r hr loc hloc

/-- Witness for C1: concrete run whose accepted attribution is checked
against the one recorded region of its revision. -/
theorem blame_no_refactoring_attribution_witness :
    locCovers ⟨"g", 5, 9⟩ "f" 1 = false :=
  blame_no_refactoring_attribution envA 1 "r" "f" [1] (some [])
    {⟨"r0", "f", 1, "c"⟩} [] (by decide) ⟨"r0", "f", 1, "c"⟩ (by decide)
    ⟨"t", [⟨"g", 5, 9⟩]⟩ (by decide) ⟨"g", 5, 9⟩ (by decide)

/-- Claim C4: a reblame request whose revision is already in the caller's
ignore list is silently dropped — when every accumulated request is
guarded, `_blame` makes no recursive call, raises no error, and returns
exactly the accepted attributions, with the requests recorded as
dropped. -/
theorem blame_cycle_guard_drops (env : Env) (fuel : Nat) (rev fp : String)
    (lines : List Nat) (ig : List String)
    (hall : ∀ kv ∈ toReblameOf env rev fp lines (some ig), kv.2.rev ∈ ig) :
    blameF env (fuel + 1) rev fp lines (some ig) =
      .ok (acceptedOf env rev fp lines (some ig))
        ((toReblameOf env rev fp lines (some ig)).map (fun kv => kv.2)) := by
  rw [blameF_succ]
  exact reblameLoop_all_dropped (fun r f l i => blameF env fuel r f l i) ig
    (toReblameOf env rev fp lines (some ig)) hall
    (acceptedOf env rev fp lines (some ig)) []

/-- Witness for C4 at a concrete environment whose only candidate is
covered by a refactoring of an already-ignored revision. -/
theorem blame_cycle_guard_drops_witness :
    blameF envB 1 "r9" "f" [2] (some ["r1"]) =
      .ok (acceptedOf envB "r9" "f" [2] (some ["r1"]))
        ((toReblameOf envB "r9" "f" [2] (some ["r1"])).map (fun kv => kv.2)) :=
  blame_cycle_guard_drops envB 0 "r9" "f" [2] ["r1"] (by decide)

/-- Claim C8: every recursive branch receives the caller's ignore list
extended with exactly its own reblame revision — sibling exclusions are
not visible — and its accepted results flow into the caller's result. -/
theorem blame_branch_isolation (env : Env) (fuel : Nat) (rev fp : String)
    (lines : List Nat) (ig : List String) (res : Finset BlameData)
    (dropped : List ReblameCandidate)
    (h : blameF env (fuel + 1) rev fp lines (some ig) = .ok res dropped) :
    ∀ kv ∈ toReblameOf env rev fp lines (some ig), kv.2.rev ∉ ig →
      ∃ res2 dropped2,
        blameF env fuel kv.2.rev kv.2.file_path kv.2.modified_lines
            (some (ig ++ [kv.2.rev])) = .ok res2 dropped2
          ∧ res2 ⊆ res := by
  rw [blameF_succ] at h
  exact reblameLoop_ok_branch (fun r f l i => blameF env fuel r f l i) ig
    (toReblameOf env rev fp lines (some ig)) _ [] res dropped h

/-- Witness for C8: the one reblame request of a concrete run is re-blamed
with exactly the caller's (empty) ignore list plus its own revision. -/
theorem blame_branch_isolation_witness :
    ∃ res2 dropped2,
      blameF envC 1 "r1" "f" [2] (some ["r1"]) = .ok res2 dropped2
        ∧ res2 ⊆ {⟨"r0", "f", 2, "c"⟩} := by
  have h := blame_branch_isolation envC 1 "r9" "f" [2] []
    ({⟨"r0", "f", 2, "c"⟩} : Finset BlameData) [] (by decide)
    ("r1@f", ⟨"r1", "f", [2]⟩) (by decide) (by decide)
  exact h

/-- Claim C10: with the default `ignore_revs_list = None`, as soon as at
least one candidate attribution falls inside a refactoring region the
cycle-guard membership test `rev in None` raises a `TypeError` — the call
fails instead of treating `None` as an empty list. -/
theorem blame_none_ignore_error (env : Env) (fuel : Nat) (rev fp : String)
    (lines : List Nat) (b : BlameData)
    (hb : b ∈ env.baseBlame rev fp lines none)
    (hcov : coveredBy (env.refactorings b.commit) b.file_path b.line_num = true) :
    blameF env (fuel + 1) rev fp lines none = .noneTypeError := by
  rw [blameF_succ]
  obtain ⟨rc, hrc, _⟩ :=
    partition_established env.refactorings (env.baseBlame rev fp lines none) b hb hcov
  rw [← toReblameOf_eq] at hrc
  cases htb : toReblameOf env rev fp lines none with
  | nil =>
    rw [htb] at hrc
    simp [lookupKey] at hrc
  | cons kv tb =>
    exact reblameLoop_none_head _ kv tb _ []

/-- Witness for C10 at a concrete environment with one covered
candidate. -/
theorem blame_none_ignore_error_witness :
    blameF envB 1 "r9" "f" [2] none = .noneTypeError :=
  blame_none_ignore_error envB 0 "r9" "f" [2] ⟨"r1", "f", 2, "c"⟩ (by decide) (by decide)

/-- Claim C9: conservation of lines — when the history engine returns
attributions for exactly the requested line numbers, the line numbers of
the returned attributions together with the line numbers of the requests
dropped by the cycle guard equal the original `modified_lines`. -/
theorem blame_line_conservation (env : Env)
    (hcons : ∀ rev fp lines ig,
      ((env.baseBlame rev fp lines ig).map (fun b => b.line_num)).toFinset
        = lines.toFinset) :
    ∀ fuel rev fp lines ig res dropped,
      blameF env fuel rev fp lines (some ig) = .ok res dropped →
      resLines res ∪ droppedLines dropped = lines.toFinset := by
  intro fuel
  induction fuel with
  | zero =>
    intro rev fp lines ig res dropped h
    cases h
  | succ fuel ih =>
    intro rev fp lines ig res dropped h
    rw [blameF_succ] at h
    have hloop := reblameLoop_ok_lines (fun r f l i => blameF env fuel r f l i) ig
      (toReblameOf env rev fp lines (some ig))
      (fun kv _ _ res2 dropped2 hrec =>
        ih kv.2.rev kv.2.file_path kv.2.modified_lines (ig ++ [kv.2.rev]) res2 dropped2 hrec)
      (acceptedOf env rev fp lines (some ig)) [] res dropped h
    rw [hloop]
    have hde : droppedLines [] = ∅ := rfl
    rw [hde, Finset.union_empty, acceptedOf_eq, toReblameOf_eq,
      partition_lines env.refactorings (env.baseBlame rev fp lines (some ig))]
    exact hcons rev fp lines (some ig)

/-- Witness for C9 at a concrete line-conserving environment. -/
theorem blame_line_conservation_witness :
    resLines {(⟨"r0", "f", 1, "c"⟩ : BlameData)} ∪ droppedLines []
      = ([1] : List Nat).toFinset := by
  have h := blame_line_conservation envA
    (fun rev fp lines ig => by
      ext x
      simp [envA])
    1 "r" "f" [1] [] {⟨"r0", "f", 1, "c"⟩} [] (by decide)
  exact h

theorem filter_notMem_append_lt {allRevs ig : List String} {a : String}
    (ha : a ∈ allRevs) (hni : a ∉ ig) :
    (allRevs.filter (fun x => decide (x ∉ ig ++ [a]))).length
      < (allRevs.filter (fun x => decide (x ∉ ig))).length := by
  have h1 : allRevs.filter (fun x => decide (x ∉ ig ++ [a]))
      = (allRevs.filter (fun x => decide (x ∉ ig))).filter (fun x => decide (x ≠ a)) := by
    rw [List.filter_filter]
    refine List.filter_congr (fun x _ => ?_)
    by_cases hig : x ∈ ig <;> by_cases hxa : x = a <;>
      simp [List.mem_append, hig, hxa]
  rw [h1]
  refine List.length_filter_lt_length_iff_exists.mpr ?_
  exact ⟨a, List.mem_filter.mpr ⟨ha, by simpa using hni⟩, by simp⟩

/-- Claim C3: termination — over a repository whose history engine only
ever attributes lines to revisions drawn from the finite list `allRevs`,
every recursion path extends its ignore list by one not-yet-ignored
revision per call, so fuel exceeding the number of not-yet-ignored
revisions guarantees `_blame` completes with an `ok` outcome (the fuel,
i.e. the recursion depth, is never exhausted). -/
theorem blame_terminates (env : Env) (allRevs : List String)
    (hbase : ∀ rev fp lines ig b, b ∈ env.baseBlame rev fp lines ig →
      b.commit ∈ allRevs) :
    ∀ fuel rev fp lines ig,
      (allRevs.filter (fun x => decide (x ∉ ig))).length < fuel →
      ∃ res dropped, blameF env fuel rev fp lines (some ig) = .ok res dropped := by
  intro fuel
  induction fuel with
  | zero =>
    intro rev fp lines ig hlt
    exact absurd hlt (Nat.not_lt_zero _)
  | succ fuel ih =>
    intro rev fp lines ig hlt
    rw [blameF_succ]
    refine reblameLoop_ok_total (fun r f l i => blameF env fuel r f l i) ig
      (toReblameOf env rev fp lines (some ig)) ?_
      (acceptedOf env rev fp lines (some ig)) []
    intro kv hkv hni
    obtain ⟨b, hb, heq⟩ := partition_tb_rev env.refactorings
      (env.baseBlame rev fp lines (some ig)) kv (by rw [← toReblameOf_eq]; exact hkv)
    have hrevmem : kv.2.rev ∈ allRevs := by
      rw [heq]
      exact hbase rev fp lines (some ig) b hb
    have hlt2 : (allRevs.filter (fun x => decide (x ∉ ig ++ [kv.2.rev]))).length < fuel := by
      have := filter_notMem_append_lt hrevmem hni
      omega
    exact ih kv.2.rev kv.2.file_path kv.2.modified_lines (ig ++ [kv.2.rev]) hlt2

/-- Witness for C3 with a one-revision repository and fuel 2. -/
theorem blame_terminates_witness :
    ∃ res dropped, blameF envA 2 "r" "f" [1] (some []) = .ok res dropped :=
  blame_terminates envA ["r0"]
    (fun rev fp lines ig b hb => by
      simp only [envA] at hb
      obtain ⟨l, _, rfl⟩ := List.mem_map.mp hb
      simp)
    2 "r" "f" [1] [] (by decide)

/-- Counterexample for C6: with one candidate blame for line 2 of file `f`
at revision `r1`, covered by two refactoring regions of `r1`, the single
accumulated `ReblameCandidate` has `modified_lines = [2, 2]` — the same
line number occurs twice, once per covering region, refuting that
`modified_lines` behaves as a set of int. -/
theorem reblame_lines_duplicate_cex :
    (toReblameOf envD "r9" "f" [2] (some [])).map (fun kv => kv.2.modified_lines)
      = [[2, 2]] := by
  decide

/-- Claim C6 (amended): within one `_blame` call the covered candidates
are grouped, before any recursive call, into a dictionary with pairwise
distinct keys; every entry's key is its request's
`revision + "@" + file_path`; and every covered candidate's line number is
recorded in the request stored under its key (possibly more than once when
several regions cover it). -/
theorem toReblame_grouping (refacs : String → List Refactoring) (cs : List BlameData) :
    ((partitionCandidates refacs cs).1.map (fun kv => kv.1)).Nodup
    ∧ (∀ kv ∈ (partitionCandidates refacs cs).1, kv.1 = tbKey kv.2.rev kv.2.file_path)
    ∧ (∀ b ∈ cs, coveredBy (refacs b.commit) b.file_path b.line_num = true →
        ∃ rc, lookupKey (tbKey b.commit b.file_path) (partitionCandidates refacs cs).1
            = some rc
          ∧ b.line_num ∈ rc.modified_lines) :=
  ⟨partition_tb_nodup_keys refacs cs, partition_tb_shape refacs cs,
    fun b hb hcov => partition_established refacs cs b hb hcov⟩

/-- Witness for C6's amended statement at the duplicate-region
environment. -/
theorem toReblame_grouping_witness :
    ∃ rc, lookupKey (tbKey "r1" "f")
        (partitionCandidates envD.refactorings [⟨"r1", "f", 2, "c"⟩]).1 = some rc
      ∧ 2 ∈ rc.modified_lines :=
  (toReblame_grouping envD.refactorings [⟨"r1", "f", 2, "c"⟩]).2.2
    ⟨"r1", "f", 2, "c"⟩ (by decide) (by decide)
